import Mathlib

/-!
Shallow embedding of the iterative least-squares estimator of the
`jax_demo` notebooks, and proofs about its loop structure, termination
behavior, p-value computation, Taylor-approximation loop, and the
inner-product equality assertion.  Array values are modelled over `ℝ`;
the automatic-differentiation engine, the eigendecomposition routine,
the uniform index sampler and the standard normal CDF are external
collaborators and are modelled as explicit function parameters.
-/

namespace JaxDemo

noncomputable section

open Classical

/-- `jnp.mean` of a length-`N` vector. -/
def mean {N : ℕ} (v : Fin N → ℝ) : ℝ := (∑ i, v i) / N

/-- `predict(w, b, x) = jnp.dot(x, w) + b`, row-wise. -/
def predict {N D : ℕ} (w : Fin D → ℝ) (b : ℝ) (x : Fin N → Fin D → ℝ) : Fin N → ℝ :=
  fun i => (∑ j, x i j * w j) + b

/-- `loss(w, b, x, y) = jnp.mean((predict(w, b, x) - y)**2)`. -/
def loss {N D : ℕ} (w : Fin D → ℝ) (b : ℝ) (x : Fin N → Fin D → ℝ) (y : Fin N → ℝ) : ℝ :=
  mean (fun i => (predict w b x i - y i) ^ 2)

/-- Model state: the weight vector `W` and the scalar bias `b`. -/
abbrev Params (D : ℕ) := (Fin D → ℝ) × ℝ

/-- The gradient oracle (`grad(loss, (0, 1))` in the source): an external
capability mapping a loss function (already applied to the data) and the
current parameters to the pair `(grad_W, grad_b)`. -/
abbrev GradOracle (D : ℕ) := ((Fin D → ℝ) → ℝ → ℝ) → Params D → Params D

/-- One epoch body of the full-batch loop:
`grad_W, grad_b = grad(loss, (0,1))(W, b, X, y); W -= lr*grad_W; b -= lr*grad_b`. -/
def fullBatchStep {N D : ℕ} (g : GradOracle D) (X : Fin N → Fin D → ℝ) (y : Fin N → ℝ)
    (lr : ℝ) (p : Params D) : Params D :=
  ((fun j => p.1 j - lr * (g (fun w b => loss w b X y) p).1 j),
    p.2 - lr * (g (fun w b => loss w b X y) p).2)

/-- Parameters after `n` full-batch epochs. -/
def fullBatchParams {N D : ℕ} (g : GradOracle D) (X : Fin N → Fin D → ℝ) (y : Fin N → ℝ)
    (lr : ℝ) (p0 : Params D) (n : ℕ) : Params D :=
  (fullBatchStep g X y lr)^[n] p0

/-- `jnp.linalg.norm` of a length-`n` vector (Euclidean norm). -/
def vnorm {n : ℕ} (v : Fin n → ℝ) : ℝ := Real.sqrt (∑ j, v j ^ 2)

/-- `jnp.linalg.norm` of the shape-`(1,)` bias array: the Euclidean norm
of a single scalar. -/
def snorm (x : ℝ) : ℝ := Real.sqrt (x ^ 2)

/-- The loop's convergence test,
`jnp.linalg.norm(W-old_W) < tol and jnp.linalg.norm(b-old_b) < tol`. -/
def converged {D : ℕ} (old new : Params D) (tol : ℝ) : Prop :=
  vnorm (fun j => new.1 j - old.1 j) < tol ∧ snorm (new.2 - old.2) < tol

/-- The full-batch `while True:` loop, with explicit fuel because the
source loop has no iteration bound: `none` means the fuel ran out with
the convergence test never satisfied. -/
def fitFullBatchAux {N D : ℕ} (g : GradOracle D) (X : Fin N → Fin D → ℝ) (y : Fin N → ℝ)
    (lr tol : ℝ) : ℕ → Params D → Option (Params D)
  | 0, _ => none
  | fuel + 1, p =>
    if converged p (fullBatchStep g X y lr p) tol then some (fullBatchStep g X y lr p)
    else fitFullBatchAux g X y lr tol fuel (fullBatchStep g X y lr p)

/-- A gradient oracle that always reports unit gradients, used to
exhibit an input on which the full-batch loop never converges. -/
def unitOracle : GradOracle 1 := fun _ _ => (fun _ => 1, 1)

/-- A trivial 1×1 design matrix. -/
def Xone : Fin 1 → Fin 1 → ℝ := fun _ _ => 0

/-- A trivial length-1 target vector. -/
def yone : Fin 1 → ℝ := fun _ => 0

/-- Trivial initial parameters for the witness instances. -/
def pone : Params 1 := (fun _ => 0, 0)

/-- Row selection `X[indices[i]]`: the `batch_size` rows of `X` named by
one batch of sampled indices. -/
def rows {N D bs : ℕ} (X : Fin N → Fin D → ℝ) (idx : Fin bs → Fin N) :
    Fin bs → Fin D → ℝ :=
  fun r => X (idx r)

/-- Target selection `y[indices[i]]`. -/
def rowsV {N bs : ℕ} (y : Fin N → ℝ) (idx : Fin bs → Fin N) : Fin bs → ℝ :=
  fun r => y (idx r)

/-- One mini-batch update:
`grad_W, grad_b = grad(loss, (0,1))(W, b, X_batch, y_batch);
W -= learning_rate * grad_W / batch_size; b -= learning_rate * grad_b / batch_size`. -/
def minibatchStep {N D bs : ℕ} (g : GradOracle D) (X : Fin N → Fin D → ℝ) (y : Fin N → ℝ)
    (lr : ℝ) (idx : Fin bs → Fin N) (p : Params D) : Params D :=
  ((fun j => p.1 j -
      lr * (g (fun w b => loss w b (rows X idx) (rowsV y idx)) p).1 j / (bs : ℝ)),
    p.2 - lr * (g (fun w b => loss w b (rows X idx) (rowsV y idx)) p).2 / (bs : ℝ))

/-- State of the inner `for i in range(num_batches)` loop after `k` batches:
current parameters, the `old_W`/`old_b` pair (reassigned at the top of every
batch iteration), and the accumulated `minibatch_loss`.  `idx k` is the
`k`-th batch of sampled row indices of the epoch. -/
def epochRun {N D bs : ℕ} (g : GradOracle D) (X : Fin N → Fin D → ℝ) (y : Fin N → ℝ)
    (lr : ℝ) (idx : ℕ → Fin bs → Fin N) (s0 : Params D × Params D × ℝ) :
    ℕ → Params D × Params D × ℝ
  | 0 => s0
  | k + 1 =>
    (minibatchStep g X y lr (idx k) (epochRun g X y lr idx s0 k).1,
      (epochRun g X y lr idx s0 k).1,
      (epochRun g X y lr idx s0 k).2.2 +
        loss (epochRun g X y lr idx s0 k).1.1 (epochRun g X y lr idx s0 k).1.2
          (rows X (idx k)) (rowsV y (idx k)))

/-- The mini-batch `while True:` loop with explicit fuel.  Each epoch
derives its sampler key from the epoch counter (`key = jnr.PRNGKey(epoch)`),
draws the whole `num_batches × batch_size` index array through the external
sampler `randint`, runs the `num_batches` sequential batch updates, records
the epoch's accumulated `minibatch_loss`, and stops when the convergence
test on the last `old_W`/`old_b` snapshot passes.  The loop state carries
the leftover `old_W`/`old_b` pair across epochs, as the Python variables do. -/
def fitMinibatchAux {N D bs : ℕ} (g : GradOracle D) (X : Fin N → Fin D → ℝ)
    (y : Fin N → ℝ) (lr tol : ℝ) (B : ℕ) (randint : ℕ → ℕ → Fin bs → Fin N)
    (prngKey : ℕ → ℕ) : ℕ → ℕ → Params D × Params D → List ℝ → Option (Params D × List ℝ)
  | 0, _, _, _ => none
  | fuel + 1, epoch, st, acc =>
    if converged (epochRun g X y lr (randint (prngKey epoch)) (st.1, st.2, 0) B).2.1
        (epochRun g X y lr (randint (prngKey epoch)) (st.1, st.2, 0) B).1 tol then
      some ((epochRun g X y lr (randint (prngKey epoch)) (st.1, st.2, 0) B).1,
        acc ++ [(epochRun g X y lr (randint (prngKey epoch)) (st.1, st.2, 0) B).2.2])
    else
      fitMinibatchAux g X y lr tol B randint prngKey fuel (epoch + 1)
        ((epochRun g X y lr (randint (prngKey epoch)) (st.1, st.2, 0) B).1,
          (epochRun g X y lr (randint (prngKey epoch)) (st.1, st.2, 0) B).2.1)
        (acc ++ [(epochRun g X y lr (randint (prngKey epoch)) (st.1, st.2, 0) B).2.2])

/-- A trivial index sampler over a single-row dataset, for the witness
instances. -/
def samplerOne : ℕ → ℕ → Fin 1 → Fin 1 := fun _ _ _ => 0

/-- `S = (1/sigma2) * jnp.dot(X_.T, X_)`: the scaled Gram matrix of the
augmented design matrix that is handed to `jnp.linalg.eigh`. -/
def Smat {m n : ℕ} (σ2 : ℝ) (Xaug : Matrix (Fin m) (Fin n) ℝ) :
    Matrix (Fin n) (Fin n) ℝ :=
  (1 / σ2) • (Xaug.transpose * Xaug)

/-- `W_std = sigma2 * eig_vecs @ jnp.diag(1/jnp.sqrt(eig_vals)) @ eig_vecs.T`,
reconstructed from the eigendecomposition returned by the external
`jnp.linalg.eigh`. -/
def W_std {n : ℕ} (σ2 : ℝ) (eigVals : Fin n → ℝ)
    (eigVecs : Matrix (Fin n) (Fin n) ℝ) : Matrix (Fin n) (Fin n) ℝ :=
  σ2 • (eigVecs * Matrix.diagonal (fun i => 1 / Real.sqrt (eigVals i)) * eigVecs.transpose)

/-- The notebook's p-value cell: `W_pvals = 2 * (1-norm.cdf(abs(W_.T) / jnp.diag(W_std)))`,
with the eigendecomposition routine `eigh` and the standard normal CDF `Φ`
passed in as the external collaborators they are. -/
def coefficient_p_values {m n : ℕ}
    (eigh : Matrix (Fin n) (Fin n) ℝ → (Fin n → ℝ) × Matrix (Fin n) (Fin n) ℝ)
    (Φ : ℝ → ℝ) (coef : Fin n → ℝ) (σ2 : ℝ) (Xaug : Matrix (Fin m) (Fin n) ℝ) :
    Fin n → ℝ :=
  fun i => 2 * (1 - Φ (|coef i| /
    W_std σ2 (eigh (Smat σ2 Xaug)).1 (eigh (Smat σ2 Xaug)).2 i i))

/-- The p-value formula as the specification words it: the z-score divides
each coefficient by the SQUARE ROOT of the corresponding diagonal entry of
the reconstructed matrix.  Stated only to be compared with
`coefficient_p_values`, which embeds the code. -/
def coefficient_p_values_claim {m n : ℕ}
    (eigh : Matrix (Fin n) (Fin n) ℝ → (Fin n → ℝ) × Matrix (Fin n) (Fin n) ℝ)
    (Φ : ℝ → ℝ) (coef : Fin n → ℝ) (σ2 : ℝ) (Xaug : Matrix (Fin m) (Fin n) ℝ) :
    Fin n → ℝ :=
  fun i => 2 * (1 - Φ (|coef i| /
    Real.sqrt (W_std σ2 (eigh (Smat σ2 Xaug)).1 (eigh (Smat σ2 Xaug)).2 i i)))

/-- The p-value cell as a fallible computation.  The source contains no
rank check and no raise statement of any kind, so its embedding into
`Except` returns normally on every input. -/
def coefficient_p_values_run {m n : ℕ}
    (eigh : Matrix (Fin n) (Fin n) ℝ → (Fin n → ℝ) × Matrix (Fin n) (Fin n) ℝ)
    (Φ : ℝ → ℝ) (coef : Fin n → ℝ) (σ2 : ℝ) (Xaug : Matrix (Fin m) (Fin n) ℝ) :
    Except String (Fin n → ℝ) :=
  Except.ok (coefficient_p_values eigh Φ coef σ2 Xaug)

/-- A computation raised an error instead of returning a value. -/
def raisesError {α : Type} (r : Except String α) : Prop :=
  ∃ msg, r = Except.error msg

/-- A concrete strictly increasing cumulative distribution function
(of a real random variable symmetric about 0), used to instantiate the
external standard-normal-CDF collaborator on concrete inputs. -/
def sigmoidCDF (x : ℝ) : ℝ := (x / (1 + |x|) + 1) / 2

/-- Eigendecomposition oracle output for the 1×1 scaled Gram matrix
`(1/16)`: eigenvalue `1/16`, eigenvector matrix `1`. -/
def eighQuarter : Matrix (Fin 1) (Fin 1) ℝ → (Fin 1 → ℝ) × Matrix (Fin 1) (Fin 1) ℝ :=
  fun _ => (fun _ => 1 / 16, 1)

/-- The 1×1 augmented design matrix `(1/4)`, whose scaled Gram matrix at
`sigma2 = 1` is `(1/16)`. -/
def XaugQuarter : Matrix (Fin 1) (Fin 1) ℝ := Matrix.of fun _ _ => 1 / 4

/-- A rank-deficient 2×2 augmented design matrix: the feature column
repeats the intercept column, so every entry is `1`. -/
def XaugRep : Matrix (Fin 2) (Fin 2) ℝ := Matrix.of fun _ _ => 1

/-- Eigendecomposition oracle output for the rank-deficient Gram matrix
`[[2,2],[2,2]]` of `XaugRep`: eigenvalues `0` and `4` with orthonormal
eigenvector columns `(-√2/2, √2/2)` and `(√2/2, √2/2)`. -/
def eighRep : Matrix (Fin 2) (Fin 2) ℝ → (Fin 2 → ℝ) × Matrix (Fin 2) (Fin 2) ℝ :=
  fun _ => (fun i => if i = 0 then 0 else 4,
    Matrix.of fun i j =>
      if j = 0 then (if i = 0 then -(Real.sqrt 2 / 2) else Real.sqrt 2 / 2)
      else Real.sqrt 2 / 2)

/-- Eigendecomposition oracle output for the 1×1 identity Gram matrix:
eigenvalue `1`, eigenvector matrix `1`. -/
def eighId : Matrix (Fin 1) (Fin 1) ℝ → (Fin 1 → ℝ) × Matrix (Fin 1) (Fin 1) ℝ :=
  fun _ => (fun _ => 1, 1)

/-- The constant-`1/2` function: a degenerate monotone CDF-like function
used for witness instances. -/
def halfCDF : ℝ → ℝ := fun _ => 1 / 2

/-- The 1×1 identity augmented design matrix. -/
def XaugOne : Matrix (Fin 1) (Fin 1) ℝ := Matrix.of fun _ _ => 1

/-- State of the notebook's higher-order approximation loop after `i`
iterations: the pair `(approx_total, factorial)`.  The loop body is
`d = grad(d); approx_total += d(49.0)*((-6)**i) / factorial;
factorial *= i`, where `dsqrt i` models the value the `i`-fold iterated
`grad` returns for the `i`-th derivative of the square-root function at
`49.0`. -/
def codeTaylorState (dsqrt : ℕ → ℝ) : ℕ → ℝ × ℝ
  | 0 => (7, 1)
  | i + 1 =>
    ((codeTaylorState dsqrt i).1 +
      dsqrt (i + 1) * (-6 : ℝ) ^ (i + 1) / (codeTaylorState dsqrt i).2,
      (codeTaylorState dsqrt i).2 * ((i : ℝ) + 1))

/-- The accumulated `approx_total` after `k` loop iterations. -/
def approx_total (dsqrt : ℕ → ℝ) (k : ℕ) : ℝ := (codeTaylorState dsqrt k).1

/-- The degree-`k` Taylor polynomial of the square-root function about 49
evaluated at 43: `7 + ∑_{i=1..k} dsqrt(i) * (-6)^i / i!`. -/
def taylorPoly (dsqrt : ℕ → ℝ) (k : ℕ) : ℝ :=
  7 + ∑ i in Finset.Icc 1 k, dsqrt i * (-6 : ℝ) ^ i / (Nat.factorial i : ℝ)

/-- The exact `i`-th derivative of `x ↦ x^(1/2)` at `x = 49`:
`(1/2)(1/2 - 1)···(1/2 - i + 1) · 49^(1/2 - i)`, with `49^(1/2) = 7`.
This is the value an exact automatic-differentiation engine returns. -/
def sqrtDeriv49 (i : ℕ) : ℝ :=
  (∏ j in Finset.range i, ((1 : ℝ) / 2 - j)) * 7 / 49 ^ i

/-- `jnp.dot` on two 1-D arrays: the sum of the elementwise products. -/
def jnp_dot (x y : List ℝ) : ℝ := (List.zipWith (fun a b => a * b) x y).sum

/-- `jnp.einsum('i,i', x, y)`: contraction of the shared index, modelled
as a left fold over the elementwise products. -/
def jnp_einsum_ii (x y : List ℝ) : ℝ :=
  (List.zipWith (fun a b => a * b) x y).foldl (fun a b => a + b) 0

/-- `x @ y` on two 1-D arrays: the matmul-style inner product, modelled
as a right fold over the elementwise products. -/
def matmul_vec (x y : List ℝ) : ℝ :=
  (List.zipWith (fun a b => a * b) x y).foldr (fun a b => a + b) 0

end

end JaxDemo

namespace JaxDemo

noncomputable section

open Classical

theorem fitFullBatchAux_none {N D : ℕ} (g : GradOracle D) (X : Fin N → Fin D → ℝ)
    (y : Fin N → ℝ) (lr tol : ℝ) (p0 : Params D)
    (h : ∀ n, ¬ converged (fullBatchParams g X y lr p0 n)
        (fullBatchParams g X y lr p0 (n + 1)) tol) :
    ∀ fuel n, fitFullBatchAux g X y lr tol fuel (fullBatchParams g X y lr p0 n) = none := by
  intro fuel
  induction fuel with
  | zero => intro n; rfl
  | succ fuel ih =>
    intro n
    have hs : fullBatchStep g X y lr (fullBatchParams g X y lr p0 n) =
        fullBatchParams g X y lr p0 (n + 1) := by
      rw [fullBatchParams, fullBatchParams, Function.iterate_succ_apply']
    rw [fitFullBatchAux, hs, if_neg (h n)]
    exact ih (n + 1)

/-- Claim C1: every full-batch epoch computes the loss as the mean of the
squared residuals `mean((X·W + b - y)^2)`, obtains `(gradW, gradb)` by
applying the gradient oracle to that loss at the current parameters, and
produces the next parameters exactly as `W - learning_rate * gradW` and
`b - learning_rate * gradb`. -/
theorem fullBatch_epoch_update {N D : ℕ} (g : GradOracle D) (X : Fin N → Fin D → ℝ)
    (y : Fin N → ℝ) (lr : ℝ) (p0 : Params D) (n : ℕ) :
    loss (fullBatchParams g X y lr p0 n).1 (fullBatchParams g X y lr p0 n).2 X y =
      (∑ i, ((∑ j, X i j * (fullBatchParams g X y lr p0 n).1 j) +
        (fullBatchParams g X y lr p0 n).2 - y i) ^ 2) / N ∧
    fullBatchParams g X y lr p0 (n + 1) =
      (fun j => (fullBatchParams g X y lr p0 n).1 j -
          lr * (g (fun w b => loss w b X y) (fullBatchParams g X y lr p0 n)).1 j,
        (fullBatchParams g X y lr p0 n).2 -
          lr * (g (fun w b => loss w b X y) (fullBatchParams g X y lr p0 n)).2) := by
  constructor
  · simp [loss, mean, predict]
  · rw [fullBatchParams, Function.iterate_succ_apply']
    rfl

/-- Claim C2: the full-batch loop stops exactly when, after an epoch's
update, the Euclidean norm of the change in `W` and the Euclidean norm of
the change in `b` are both below `tolerance`; it has no maximum-epoch
bound, so whenever the per-epoch parameter change never falls below
tolerance the loop never terminates (here: it exhausts any amount of
fuel). -/
theorem fullBatch_stop_and_nontermination {N D : ℕ} (g : GradOracle D)
    (X : Fin N → Fin D → ℝ) (y : Fin N → ℝ) (lr tol : ℝ) (p0 : Params D)
    (h : ∀ n, ¬ converged (fullBatchParams g X y lr p0 n)
        (fullBatchParams g X y lr p0 (n + 1)) tol) :
    (∀ (p : Params D) (fuel : ℕ),
      (converged p (fullBatchStep g X y lr p) tol ↔
        Real.sqrt (∑ j, ((fullBatchStep g X y lr p).1 j - p.1 j) ^ 2) < tol ∧
          Real.sqrt (((fullBatchStep g X y lr p).2 - p.2) ^ 2) < tol) ∧
      (converged p (fullBatchStep g X y lr p) tol →
        fitFullBatchAux g X y lr tol (fuel + 1) p = some (fullBatchStep g X y lr p)) ∧
      (¬ converged p (fullBatchStep g X y lr p) tol →
        fitFullBatchAux g X y lr tol (fuel + 1) p =
          fitFullBatchAux g X y lr tol fuel (fullBatchStep g X y lr p))) ∧
    ∀ fuel, fitFullBatchAux g X y lr tol fuel p0 = none := by
  refine ⟨fun p fuel => ⟨Iff.rfl, fun hc => ?_, fun hc => ?_⟩, fun fuel => ?_⟩
  · rw [fitFullBatchAux, if_pos hc]
  · rw [fitFullBatchAux, if_neg hc]
  · have := fitFullBatchAux_none g X y lr tol p0 h fuel 0
    simpa [fullBatchParams] using this

/-- Witness for C2: a constant gradient oracle with unit gradients,
`learning_rate = 1` and `tolerance = 1/2` moves the parameters by
Euclidean distance `1` every epoch, so the convergence test never
fires and the loop exhausts any fuel. -/
theorem fullBatch_stop_and_nontermination_witness :
    fitFullBatchAux unitOracle Xone yone 1 (1 / 2) 100 pone = none := by
  have h : ∀ n, ¬ converged (fullBatchParams unitOracle Xone yone 1 pone n)
      (fullBatchParams unitOracle Xone yone 1 pone (n + 1)) (1 / 2) := by
    intro n hc
    have hs : fullBatchParams unitOracle Xone yone 1 pone (n + 1) =
        fullBatchStep unitOracle Xone yone 1
          (fullBatchParams unitOracle Xone yone 1 pone n) := by
      rw [fullBatchParams, fullBatchParams, Function.iterate_succ_apply']
    rw [hs] at hc
    rcases hc with ⟨h1, -⟩
    rw [vnorm, Fin.sum_univ_one] at h1
    have he : (fullBatchStep unitOracle Xone yone 1
          (fullBatchParams unitOracle Xone yone 1 pone n)).1 0 -
        (fullBatchParams unitOracle Xone yone 1 pone n).1 0 = -1 := by
      simp [fullBatchStep, unitOracle]
    rw [he] at h1
    norm_num [Real.sqrt_one] at h1
  exact (fullBatch_stop_and_nontermination unitOracle Xone yone 1 (1 / 2) pone h).2 100

/-- Claim C4: within an epoch of the mini-batch loop, the
`batches_per_epoch` sampled batches (each a `batch_size`-tuple of row
indices in `[0, N)`, by the type of `idx`) are applied to the parameters
sequentially, batch by batch: the parameters after batch `k + 1` are the
parameters after batch `k` minus `learning_rate` times the batch-`k`
gradient divided by `batch_size`, where the gradient is taken at the
already partially updated parameters; and each step of the outer loop
runs exactly `B = batches_per_epoch` such batch updates (never an
averaged single update). -/
theorem minibatch_sequential_updates {N D bs : ℕ} (g : GradOracle D)
    (X : Fin N → Fin D → ℝ) (y : Fin N → ℝ) (lr tol : ℝ) (B : ℕ)
    (randint : ℕ → ℕ → Fin bs → Fin N) (prngKey : ℕ → ℕ)
    (idx : ℕ → Fin bs → Fin N) (s0 : Params D × Params D × ℝ) (k : ℕ)
    (fuel epoch : ℕ) (st : Params D × Params D) (acc : List ℝ) :
    (epochRun g X y lr idx s0 (k + 1)).1 =
      ((fun j => (epochRun g X y lr idx s0 k).1.1 j -
          lr * ((g (fun w b => loss w b (rows X (idx k)) (rowsV y (idx k)))
            (epochRun g X y lr idx s0 k).1).1 j / (bs : ℝ))),
        (epochRun g X y lr idx s0 k).1.2 -
          lr * ((g (fun w b => loss w b (rows X (idx k)) (rowsV y (idx k)))
            (epochRun g X y lr idx s0 k).1).2 / (bs : ℝ))) ∧
    fitMinibatchAux g X y lr tol B randint prngKey (fuel + 1) epoch st acc =
      (if converged
          (epochRun g X y lr (randint (prngKey epoch)) (st.1, st.2, 0) B).2.1
          (epochRun g X y lr (randint (prngKey epoch)) (st.1, st.2, 0) B).1 tol then
        some ((epochRun g X y lr (randint (prngKey epoch)) (st.1, st.2, 0) B).1,
          acc ++ [(epochRun g X y lr (randint (prngKey epoch)) (st.1, st.2, 0) B).2.2])
      else
        fitMinibatchAux g X y lr tol B randint prngKey fuel (epoch + 1)
          ((epochRun g X y lr (randint (prngKey epoch)) (st.1, st.2, 0) B).1,
            (epochRun g X y lr (randint (prngKey epoch)) (st.1, st.2, 0) B).2.1)
          (acc ++ [(epochRun g X y lr (randint (prngKey epoch)) (st.1, st.2, 0) B).2.2])) := by
  constructor
  · simp [epochRun, minibatchStep, mul_div_assoc]
  · rfl

theorem epochRun_fst_indep {N D bs : ℕ} (g : GradOracle D) (X : Fin N → Fin D → ℝ)
    (y : Fin N → ℝ) (lr : ℝ) (idx : ℕ → Fin bs → Fin N) (p0 o o2 : Params D)
    (a a2 : ℝ) : ∀ k, (epochRun g X y lr idx (p0, o, a) k).1 =
      (epochRun g X y lr idx (p0, o2, a2) k).1 := by
  intro k
  induction k with
  | zero => rfl
  | succ k ih => rw [epochRun, epochRun, ih]

/-- Claim C5: the mini-batch convergence test compares only the last
batch's parameter delta against tolerance.  With `B = k + 1` batches per
epoch, the `old_W`/`old_b` snapshot left after the inner loop is exactly
the parameter pair before the final batch update; the epoch's parameters
do not depend on the leftover snapshot or loss accumulator the epoch
started with; and the stop test is equivalent to comparing the
parameters after batch `k` with their update by the final batch alone. -/
theorem minibatch_stop_last_delta {N D bs : ℕ} (g : GradOracle D)
    (X : Fin N → Fin D → ℝ) (y : Fin N → ℝ) (lr tol : ℝ)
    (idx : ℕ → Fin bs → Fin N) (p0 o o2 : Params D) (a a2 : ℝ) (k : ℕ) :
    (epochRun g X y lr idx (p0, o, a) (k + 1)).2.1 =
      (epochRun g X y lr idx (p0, o, a) k).1 ∧
    (epochRun g X y lr idx (p0, o, a) (k + 1)).1 =
      (epochRun g X y lr idx (p0, o2, a2) (k + 1)).1 ∧
    (epochRun g X y lr idx (p0, o, a) (k + 1)).2.1 =
      (epochRun g X y lr idx (p0, o2, a2) (k + 1)).2.1 ∧
    (converged (epochRun g X y lr idx (p0, o, a) (k + 1)).2.1
        (epochRun g X y lr idx (p0, o, a) (k + 1)).1 tol ↔
      converged (epochRun g X y lr idx (p0, o, a) k).1
        (minibatchStep g X y lr (idx k) (epochRun g X y lr idx (p0, o, a) k).1) tol) := by
  refine ⟨rfl, epochRun_fst_indep g X y lr idx p0 o o2 a a2 (k + 1), ?_, Iff.rfl⟩
  show (epochRun g X y lr idx (p0, o, a) k).1 = (epochRun g X y lr idx (p0, o2, a2) k).1
  exact epochRun_fst_indep g X y lr idx p0 o o2 a a2 k

/-- Claim C7: the mini-batch loop is deterministic and reproducible.
Its sampler key is derived from the epoch counter alone, so two runs that
use the same external sampler and key functions, from the same initial
parameters and data, return the same final parameters and the same
epoch-indexed loss trace. -/
theorem minibatch_reproducible {N D bs : ℕ} (g : GradOracle D) (X : Fin N → Fin D → ℝ)
    (y : Fin N → ℝ) (lr tol : ℝ) (B : ℕ)
    (randint1 randint2 : ℕ → ℕ → Fin bs → Fin N) (prngKey1 prngKey2 : ℕ → ℕ)
    (hr : ∀ key, randint1 key = randint2 key) (hp : ∀ e, prngKey1 e = prngKey2 e) :
    ∀ (fuel epoch : ℕ) (st : Params D × Params D) (acc : List ℝ),
      fitMinibatchAux g X y lr tol B randint1 prngKey1 fuel epoch st acc =
        fitMinibatchAux g X y lr tol B randint2 prngKey2 fuel epoch st acc := by
  have h1 : randint1 = randint2 := funext hr
  have h2 : prngKey1 = prngKey2 := funext hp
  subst h1
  subst h2
  intro fuel epoch st acc
  rfl

/-- Witness for C7: a concrete instantiation on a one-sample dataset with
the constant sampler, evaluated for one unit of fuel. -/
theorem minibatch_reproducible_witness :
    fitMinibatchAux unitOracle Xone yone 1 (1 / 2) 1 samplerOne (fun e => e) 1 0
      (pone, pone) [] =
    fitMinibatchAux unitOracle Xone yone 1 (1 / 2) 1 samplerOne (fun e => e) 1 0
      (pone, pone) [] :=
  minibatch_reproducible unitOracle Xone yone 1 (1 / 2) 1 samplerOne samplerOne
    (fun e => e) (fun e => e) (fun _ => rfl) (fun _ => rfl) 1 0 (pone, pone) []

/-- Counterexample to C3 as stated: on the 1×1 design matrix `(1/4)` with
residual variance `1`, whose scaled Gram matrix has the eigendecomposition
`(1/16, 1)`, the reconstructed matrix has diagonal entry `4`; for the
coefficient `4` the code computes `2*(1 - Φ(4/4))` while the claim's
formula gives `2*(1 - Φ(4/√4))`, and the two differ for the strictly
increasing CDF `sigmoidCDF`. -/
theorem pvals_sqrt_claim_counterexample :
    coefficient_p_values eighQuarter sigmoidCDF (fun _ => 4) 1 XaugQuarter 0 ≠
      coefficient_p_values_claim eighQuarter sigmoidCDF (fun _ => 4) 1 XaugQuarter 0 := by
  have h116 : Real.sqrt (1 / 16) = 1 / 4 := by
    rw [show (1 / 16 : ℝ) = (1 / 4) ^ 2 by norm_num,
      Real.sqrt_sq (by norm_num : (0 : ℝ) ≤ 1 / 4)]
  have h4 : Real.sqrt (4 : ℝ) = 2 := by
    rw [show (4 : ℝ) = 2 ^ 2 by norm_num, Real.sqrt_sq (by norm_num : (0 : ℝ) ≤ 2)]
  have h16 : Real.sqrt (16 : ℝ) = 4 := by
    rw [show (16 : ℝ) = 4 ^ 2 by norm_num, Real.sqrt_sq (by norm_num : (0 : ℝ) ≤ 4)]
  have hstd : W_std 1 (eighQuarter (Smat 1 XaugQuarter)).1
      (eighQuarter (Smat 1 XaugQuarter)).2 0 0 = 4 := by
    simp [W_std, eighQuarter, Matrix.smul_apply, Matrix.transpose_one, Matrix.mul_one,
      Matrix.one_mul, Matrix.diagonal_apply_eq, h116, h16]
  simp only [coefficient_p_values, coefficient_p_values_claim, hstd]
  have hΦ1 : sigmoidCDF 1 = 3 / 4 := by
    rw [sigmoidCDF, abs_of_nonneg (by norm_num : (0 : ℝ) ≤ 1)]
    norm_num
  have hΦ2 : sigmoidCDF 2 = 5 / 6 := by
    rw [sigmoidCDF, abs_of_nonneg (by norm_num : (0 : ℝ) ≤ 2)]
    norm_num
  rw [show |(4 : ℝ)| = 4 from abs_of_nonneg (by norm_num), h4]
  norm_num [hΦ1, hΦ2]

/-- Claim C3 amended: `coefficient_p_values` reconstructs the
covariance-like matrix as
`residual_variance * V · diag(1/sqrt(eigenvalues)) · Vᵗ` from the
eigendecomposition of `(1/residual_variance) * Xᵀ_augmented · X_augmented`,
and returns, for every coefficient, the two-tailed value
`2 * (1 - Φ(|coefficient| / diagonal entry))` — dividing by the diagonal
entry of the reconstructed matrix itself, not by its square root. -/
theorem pvals_divide_by_diagonal {m n : ℕ}
    (eigh : Matrix (Fin n) (Fin n) ℝ → (Fin n → ℝ) × Matrix (Fin n) (Fin n) ℝ)
    (Φ : ℝ → ℝ) (coef : Fin n → ℝ) (σ2 : ℝ) (Xaug : Matrix (Fin m) (Fin n) ℝ)
    (i : Fin n) :
    coefficient_p_values eigh Φ coef σ2 Xaug i =
      2 * (1 - Φ (|coef i| /
        (σ2 • ((eigh ((1 / σ2) • (Xaug.transpose * Xaug))).2 *
          Matrix.diagonal (fun j =>
            1 / Real.sqrt ((eigh ((1 / σ2) • (Xaug.transpose * Xaug))).1 j)) *
          (eigh ((1 / σ2) • (Xaug.transpose * Xaug))).2.transpose)) i i)) := rfl

/-- Counterexample to C6 as stated: on the rank-deficient augmented design
matrix whose feature column repeats the intercept column (so the scaled
Gram matrix has eigenvalue `0`), the p-value computation raises no error of
any kind — it returns normally. -/
theorem rank_deficient_no_error :
    ¬ raisesError (coefficient_p_values_run eighRep sigmoidCDF (fun _ => 1) 1 XaugRep) := by
  rintro ⟨msg, h⟩
  simp [coefficient_p_values_run] at h

/-- Claim C6 amended: the p-value computation contains no rank-deficiency
check and no error path at all; on every input — including rank-deficient
augmented design matrices, where `1/sqrt` of a non-positive eigenvalue is
an invalid (NaN/Inf) quantity — it silently returns the resulting
p-values, raising nothing. -/
theorem pvals_total_no_raise {m n : ℕ}
    (eigh : Matrix (Fin n) (Fin n) ℝ → (Fin n → ℝ) × Matrix (Fin n) (Fin n) ℝ)
    (Φ : ℝ → ℝ) (coef : Fin n → ℝ) (σ2 : ℝ) (Xaug : Matrix (Fin m) (Fin n) ℝ) :
    coefficient_p_values_run eigh Φ coef σ2 Xaug =
      Except.ok (coefficient_p_values eigh Φ coef σ2 Xaug) ∧
    ¬ raisesError (coefficient_p_values_run eigh Φ coef σ2 Xaug) := by
  refine ⟨rfl, ?_⟩
  rintro ⟨msg, h⟩
  simp [coefficient_p_values_run] at h

/-- Claim C8: for a full-rank augmented design matrix (all eigenvalues of
the scaled Gram matrix strictly positive), nonnegative residual variance,
and a standard-normal-like CDF `Φ` (monotone, `Φ(0) = 1/2`, bounded by 1),
every entry of the vector returned by `coefficient_p_values` lies in
`[0, 1]`. -/
theorem pvals_in_unit_interval {m n : ℕ}
    (eigh : Matrix (Fin n) (Fin n) ℝ → (Fin n → ℝ) × Matrix (Fin n) (Fin n) ℝ)
    (Φ : ℝ → ℝ) (coef : Fin n → ℝ) (σ2 : ℝ) (Xaug : Matrix (Fin m) (Fin n) ℝ)
    (i : Fin n) (hrank : ∀ j, 0 < (eigh (Smat σ2 Xaug)).1 j) (hσ2 : 0 ≤ σ2)
    (hmono : Monotone Φ) (h0 : Φ 0 = 1 / 2) (hle : ∀ x, Φ x ≤ 1) :
    0 ≤ coefficient_p_values eigh Φ coef σ2 Xaug i ∧
      coefficient_p_values eigh Φ coef σ2 Xaug i ≤ 1 := by
  have hd : 0 ≤ W_std σ2 (eigh (Smat σ2 Xaug)).1 (eigh (Smat σ2 Xaug)).2 i i := by
    rw [W_std, Matrix.smul_apply, smul_eq_mul]
    refine mul_nonneg hσ2 ?_
    rw [Matrix.mul_apply]
    refine Finset.sum_nonneg fun k _ => ?_
    rw [Matrix.mul_diagonal, Matrix.transpose_apply]
    have h1 : 0 ≤ 1 / Real.sqrt ((eigh (Smat σ2 Xaug)).1 k) :=
      one_div_nonneg.mpr (Real.sqrt_nonneg _)
    have hrw : ((eigh (Smat σ2 Xaug)).2 i k *
          (1 / Real.sqrt ((eigh (Smat σ2 Xaug)).1 k))) * (eigh (Smat σ2 Xaug)).2 i k =
        (1 / Real.sqrt ((eigh (Smat σ2 Xaug)).1 k)) * ((eigh (Smat σ2 Xaug)).2 i k) ^ 2 := by
      ring
    rw [hrw]
    exact mul_nonneg h1 (sq_nonneg _)
  have hz : 0 ≤ |coef i| /
      W_std σ2 (eigh (Smat σ2 Xaug)).1 (eigh (Smat σ2 Xaug)).2 i i :=
    div_nonneg (abs_nonneg _) hd
  have hup := hmono hz
  rw [h0] at hup
  have hub := hle (|coef i| /
    W_std σ2 (eigh (Smat σ2 Xaug)).1 (eigh (Smat σ2 Xaug)).2 i i)
  simp only [coefficient_p_values]
  constructor
  · linarith
  · linarith

/-- Witness for C8: the identity 1×1 design with unit eigenvalue, unit
residual variance, zero coefficient and the constant-`1/2` CDF yields a
p-value inside `[0, 1]`. -/
theorem pvals_in_unit_interval_witness :
    0 ≤ coefficient_p_values eighId halfCDF (fun _ => 0) 1 XaugOne 0 ∧
      coefficient_p_values eighId halfCDF (fun _ => 0) 1 XaugOne 0 ≤ 1 :=
  pvals_in_unit_interval eighId halfCDF (fun _ => 0) 1 XaugOne 0
    (fun _ => by norm_num [eighId]) (by norm_num) monotone_const rfl
    (fun _ => by norm_num [halfCDF])

/-- Claim C9 (the code diverges from it): whenever the second-derivative
value returned by the gradient oracle is nonzero — as the true second
derivative of the square-root function at 49 is — the loop's accumulated
value after iteration 2 differs from the degree-2 Taylor polynomial,
because `factorial` is multiplied by `i` only after the division, so the
`i`-th term is divided by `(i-1)!` instead of `i!`. -/
theorem taylor_factorial_off_by_one (dsqrt : ℕ → ℝ) (h2 : dsqrt 2 ≠ 0) :
    approx_total dsqrt 2 ≠ taylorPoly dsqrt 2 := by
  have ha : approx_total dsqrt 2 = 7 + dsqrt 1 * (-6) + dsqrt 2 * 36 := by
    have e2 : approx_total dsqrt 2 =
        (codeTaylorState dsqrt 1).1 + dsqrt 2 * (-6 : ℝ) ^ 2 / (codeTaylorState dsqrt 1).2 :=
      rfl
    have e1a : (codeTaylorState dsqrt 1).1 = 7 + dsqrt 1 * (-6 : ℝ) ^ 1 / 1 := rfl
    have e1b : (codeTaylorState dsqrt 1).2 = 1 * (((0 : ℕ) : ℝ) + 1) := rfl
    rw [e2, e1a, e1b]
    norm_num
  have ht : taylorPoly dsqrt 2 = 7 + dsqrt 1 * (-6) + dsqrt 2 * 36 / 2 := by
    rw [taylorPoly, show Finset.Icc 1 2 = {1, 2} by decide]
    rw [Finset.sum_insert (by decide), Finset.sum_singleton]
    norm_num [Nat.factorial]
    ring
  rw [ha, ht]
  intro he
  apply h2
  linarith

/-- Witness for C9: with the exact derivatives of the square-root
function at 49 (whose second derivative is `-7/9604 ≠ 0`) the loop value
after iteration 2 is not the degree-2 Taylor polynomial. -/
theorem taylor_factorial_off_by_one_witness :
    sqrtDeriv49 2 ≠ 0 ∧ approx_total sqrtDeriv49 2 ≠ taylorPoly sqrtDeriv49 2 := by
  have h2 : sqrtDeriv49 2 = -(7 / 9604) := by
    rw [sqrtDeriv49, Finset.prod_range_succ, Finset.prod_range_succ,
      Finset.prod_range_zero]
    norm_num
  exact ⟨by rw [h2]; norm_num,
    taylor_factorial_off_by_one sqrtDeriv49 (by rw [h2]; norm_num)⟩

theorem foldl_add_eq_sum (l : List ℝ) : ∀ a : ℝ, l.foldl (fun x y => x + y) a = a + l.sum := by
  induction l with
  | nil => intro a; simp
  | cons h t ih =>
    intro a
    rw [List.foldl_cons, ih, List.sum_cons]
    ring

theorem foldr_add_eq_sum (l : List ℝ) : l.foldr (fun x y => x + y) 0 = l.sum := by
  induction l with
  | nil => simp
  | cons h t ih => rw [List.foldr_cons, ih, List.sum_cons]

/-- Claim C10: for equal-length numeric vectors, `jnp.dot`,
`jnp.einsum('i,i', ·, ·)` and `@` compute the same inner product, so the
notebook's chained equality assertion over the three always passes. -/
theorem dot_einsum_matmul_agree (x y : List ℝ) (hlen : x.length = y.length) :
    jnp_dot x y = jnp_einsum_ii x y ∧ jnp_einsum_ii x y = matmul_vec x y := by
  constructor
  · rw [jnp_dot, jnp_einsum_ii, foldl_add_eq_sum, zero_add]
  · rw [jnp_einsum_ii, matmul_vec, foldl_add_eq_sum, foldr_add_eq_sum, zero_add]

/-- Witness for C10: the three inner products agree on the concrete
equal-length vectors `[1, 2]` and `[3, 4]`. -/
theorem dot_einsum_matmul_agree_witness :
    jnp_dot [1, 2] [3, 4] = jnp_einsum_ii [1, 2] [3, 4] ∧
      jnp_einsum_ii [1, 2] [3, 4] = matmul_vec [1, 2] [3, 4] :=
  dot_einsum_matmul_agree [1, 2] [3, 4] rfl

end

end JaxDemo
